import Mathlib

/-!
NoiseNullifier: label extraction and silence synthesis.

A shallow embedding of `src/main.go` (the functions `extractBlockLabels`,
`parseLabels`, `convertToAlertManagerSilence` and `getEventDetails`) together
with the parts of Go's `strings` package they call, and theorems about them.

Modelling conventions.

* A Go `string` is a `List Char` (`Str`): the sequence of code points of a
  valid UTF-8 string.  Substring search, prefix tests and cutting agree on
  bytes and on code points for valid UTF-8.
* A Go `map[string]T` is an association list with pairwise distinct keys, kept
  in insertion order.  `m[k] = v` is `goMapSet`, `v, ok := m[k]` is `goMapGet`.
  A `for k, v := range m` loop visits the entries in the order of the list; Go
  leaves that order unspecified, so statements about a loop over a map are
  made for every list (every order), or the loop is shown not to depend on it
  (`mergeBlock_perm`).
* `time.Time` is a count of nanoseconds since the Unix epoch; the two calls of
  `time.Now()` in `convertToAlertManagerSilence` are two parameters.
* A function returning `(T, error)` returns `Except Str T`.
-/

namespace NoiseNullifier

/-- A Go string, as its sequence of code points. -/
abbrev Str := List Char

/-! ## The `strings` package -/

/-- Go `unicode.IsSpace`: the Latin-1 spaces `\t \n \v \f \r`, space, U+0085,
U+00A0, and the other code points of the `White_Space` property. -/
def isSpace (c : Char) : Bool :=
  let n := c.toNat
  (9 ≤ n && n ≤ 13) || n == 0x20 || n == 0x85 || n == 0xA0 || n == 0x1680 ||
  (0x2000 ≤ n && n ≤ 0x200A) || n == 0x2028 || n == 0x2029 || n == 0x202F ||
  n == 0x205F || n == 0x3000

/-- Go `strings.TrimSpace`: all leading and trailing white space removed. -/
def TrimSpace (s : Str) : Str :=
  ((s.dropWhile isSpace).reverse.dropWhile isSpace).reverse

/-- Go `strings.HasPrefix`. -/
def HasPrefix (s pre : Str) : Bool :=
  pre.isPrefixOf s

/-- Go `strings.TrimPrefix`: `s` without the leading `pre`, or `s` itself when
it does not start with `pre`. -/
def TrimPrefix (s pre : Str) : Str :=
  if HasPrefix s pre then s.drop pre.length else s

/-- Go `strings.Contains`: `sub` occurs somewhere in `s`. -/
def Contains : Str → Str → Bool
  | [], sub => sub.isPrefixOf []
  | c :: cs, sub => sub.isPrefixOf (c :: cs) || Contains cs sub

/-- The scan behind `Split` for a non-empty separator: `skip` counts the
characters of a separator just found that are still to be passed over, `cur`
is the current piece, reversed.  Each piece ends at the leftmost occurrence of
`sep` in what is left, as in Go's `genSplit`. -/
def splitScan (sep : Str) : Nat → Str → Str → List Str
  | _, [], cur => [cur.reverse]
  | skip + 1, _ :: cs, cur => splitScan sep skip cs cur
  | 0, c :: cs, cur =>
    if sep.isPrefixOf (c :: cs) then
      cur.reverse :: splitScan sep (sep.length - 1) cs []
    else splitScan sep 0 cs (c :: cur)

/-- Go `strings.Split(s, sep)` for a non-empty `sep` (both call sites pass a
non-empty constant): the pieces of `s` between the leftmost, non-overlapping
occurrences of `sep`. -/
def Split (s sep : Str) : List Str :=
  splitScan sep 0 s []

/-- The scan behind `SplitN`: as `splitScan`, with `cuts` the number of cuts
still allowed; when none is left the remainder is the last piece. -/
def splitNScan (sep : Str) : Nat → Nat → Str → Str → List Str
  | _, _, [], cur => [cur.reverse]
  | cuts, skip + 1, _ :: cs, cur => splitNScan sep cuts skip cs cur
  | 0, 0, c :: cs, cur => [cur.reverse ++ c :: cs]
  | cuts + 1, 0, c :: cs, cur =>
    if sep.isPrefixOf (c :: cs) then
      cur.reverse :: splitNScan sep cuts (sep.length - 1) cs []
    else splitNScan sep (cuts + 1) 0 cs (c :: cur)

/-- Go `strings.SplitN(s, sep, n)` for a non-empty `sep` and `n ≥ 0`: at most
`n` pieces, the last one being the unsplit remainder; `n = 0` gives no piece. -/
def SplitN (s sep : Str) (n : Nat) : List Str :=
  if n = 0 then [] else splitNScan sep (n - 1) 0 s []

/-- Go `strings.Join`. -/
def Join : List Str → Str → Str
  | [], _ => []
  | [a], _ => a
  | a :: b :: rest, sep => a ++ sep ++ Join (b :: rest) sep

/-! ## The string constants of the source -/

/-- The block marker `"Labels:"`. -/
def labelsMarker : Str := "Labels:".toList

/-- The end-of-labels marker `"Annotations:"`. -/
def annotationsMarker : Str := "Annotations:".toList

/-- The list-item marker `"- "`. -/
def listMarker : Str := "- ".toList

/-- The key/value separator `"="`. -/
def eqSep : Str := "=".toList

/-- The line separator `"\n"`. -/
def newline : Str := "\n".toList

/-- The alternation separator `"|"`. -/
def bar : Str := "|".toList

/-! ## Go maps -/

/-- A Go `map[string]T`: its entries, with distinct keys, in insertion order. -/
abbrev GoMap (β : Type) := List (Str × β)

/-- Map read `v, ok := m[k]`. -/
def goMapGet {β : Type} : GoMap β → Str → Option β
  | [], _ => none
  | (k', v') :: m, k => if k' = k then some v' else goMapGet m k

/-- Map write `m[k] = v`: replaces the value of an existing key, adds a new
entry otherwise. -/
def goMapSet {β : Type} : GoMap β → Str → β → GoMap β
  | [], k, v => [(k, v)]
  | (k', v') :: m, k, v => if k' = k then (k', v) :: m else (k', v') :: goMapSet m k v

/-- The label map `map[string]string`. -/
abbrev LabelMap := GoMap Str

/-! ## `extractBlockLabels` (main.go 250-285) -/

/-- The body of the `for _, line := range lines` loop of `extractBlockLabels`,
run over the remaining lines with the loop state `isInLabelsSection`, `labels`.
`continue` is the recursive call, `break` returns the labels. -/
def extractLoop : List Str → Bool → LabelMap → LabelMap
  | [], _, labels => labels
  | raw :: rest, isInLabelsSection, labels =>
    let line := TrimPrefix (TrimSpace raw) listMarker
    if HasPrefix line labelsMarker then
      extractLoop rest true labels
    else if HasPrefix line annotationsMarker then
      labels
    else if isInLabelsSection then
      match SplitN line eqSep 2 with
      | [p0, p1] => extractLoop rest isInLabelsSection (goMapSet labels (TrimSpace p0) (TrimSpace p1))
      | _ => extractLoop rest isInLabelsSection labels
    else extractLoop rest isInLabelsSection labels

/-- The function `extractBlockLabels`: the labels of a single block.  Its error result is
always `nil`. -/
def extractBlockLabels (block : Str) : Except Str LabelMap :=
  .ok (extractLoop (Split block newline) false [])

/-! ## `parseLabels` (main.go 215-247) -/

/-- The body of the merge loop `for key, value := range blockLabels`. -/
def mergeEntry (labelsMap : LabelMap) (key value : Str) : LabelMap :=
  match goMapGet labelsMap key with
  | some existingValue =>
    if existingValue ≠ value then goMapSet labelsMap key (existingValue ++ bar ++ value)
    else labelsMap
  | none => goMapSet labelsMap key value

/-- The merge loop of `parseLabels` over the entries of one block's labels. -/
def mergeBlock (labelsMap blockLabels : LabelMap) : LabelMap :=
  blockLabels.foldl (fun m kv => mergeEntry m kv.1 kv.2) labelsMap

/-- The `for _, block := range blocks` loop of `parseLabels`. -/
def parseLoop : List Str → LabelMap → Except Str LabelMap
  | [], labelsMap => .ok labelsMap
  | block :: rest, labelsMap =>
    if TrimSpace block = [] then parseLoop rest labelsMap
    else
      match extractBlockLabels (labelsMarker ++ block) with
      | .error err => .error err
      | .ok blockLabels => parseLoop rest (mergeBlock labelsMap blockLabels)

/-- The function `parseLabels`: extracts and merges labels from the firing string. -/
def parseLabels (firingStr : Str) : Except Str LabelMap :=
  parseLoop (Split firingStr labelsMarker) []

/-! ## `convertToAlertManagerSilence` (main.go 137-160) -/

/-- The struct `Matcher`. -/
structure Matcher where
  Name : Str
  Value : Str
  IsRegex : Bool
  deriving DecidableEq, Repr

/-- The struct `AlertManagerSilence`.  `StartsAt` and `EndsAt` hold the instant, in whole
seconds since the Unix epoch, that the RFC 3339 text of the field denotes. -/
structure AlertManagerSilence where
  Matchers : List Matcher
  StartsAt : Nat
  EndsAt : Nat
  CreatedBy : Str
  Comment : Str
  deriving DecidableEq, Repr

/-- A `time.Time`: nanoseconds since the Unix epoch. -/
abbrev Time := Nat

/-- Go `time.Hour`, in nanoseconds. -/
def Hour : Nat := 3600 * 1000000000

/-- The format layout `time.RFC3339` has no fractional seconds: formatting keeps the whole
seconds of the instant. -/
def formatRFC3339 (t : Time) : Nat := t / 1000000000

/-- The function `convertToAlertManagerSilence`.  `now1` is what `time.Now()` returns at line 141
(for `endsAt`), `now2` what it returns at line 155 (for `StartsAt`); the loop
over `labels` visits the entries in list order. -/
def convertToAlertManagerSilence (now1 now2 : Time) (labels : LabelMap) : AlertManagerSilence :=
  let AcknowledgeDuration := Hour
  let endsAt := now1 + AcknowledgeDuration
  let matchers := labels.foldl
    (fun (matchers : List Matcher) kv =>
      matchers ++ [{ Name := kv.1, Value := kv.2, IsRegex := Contains kv.2 bar }]) []
  { Matchers := matchers
    StartsAt := formatRFC3339 now2
    EndsAt := formatRFC3339 endsAt
    CreatedBy := "PagerDuty-AlertManager bridge".toList
    Comment := "Silenced by our PagerDuty-AlertManager bridge based on incident data".toList }

/-! ## `getEventDetails` (main.go 169-212) -/

/-- A decoded JSON value (`interface{}`): the code tells apart a string, an
object (`map[string]interface{}`) and everything else. -/
inductive JSONValue where
  | str (s : Str)
  | obj (fields : List (Str × JSONValue))
  | other

/-- An incident alert of the PagerDuty client, reduced to its `Body`; `none`
is the nil map. -/
structure IncidentAlert where
  Body : Option (GoMap JSONValue)

/-- The type assertion `v.(map[string]interface{})` on a map read. -/
def asObject : Option JSONValue → Option (GoMap JSONValue)
  | some (.obj fields) => some fields
  | _ => none

/-- The type assertion `v.(string)` on a map read. -/
def asString : Option JSONValue → Option Str
  | some (.str s) => some s
  | _ => none

/-- The function `getEventDetails`.  `listIncidentAlerts` is the result of
`client.ListIncidentAlerts(incidentID)`: an error or the alerts. -/
def getEventDetails (listIncidentAlerts : Except Str (List IncidentAlert)) (incidentID : Str) :
    Except Str (LabelMap × Str) :=
  match listIncidentAlerts with
  | .error err => .error err
  | .ok alerts =>
    match alerts with
    | [] => .error ("no alerts associated with incident ".toList ++ incidentID)
    | alert :: _ =>
      match alert.Body with
      | none => .error ("alert body is empty for incident ".toList ++ incidentID)
      | some b =>
        match asObject (goMapGet b "details".toList) with
        | none => .error ("failed to parse details for incident ".toList ++ incidentID)
        | some details =>
          match asString (goMapGet details "firing".toList) with
          | none => .error ("failed to find firing details for incident ".toList ++ incidentID)
          | some firingStr =>
            if firingStr = [] then
              .error ("failed to find firing details for incident ".toList ++ incidentID)
            else
              match parseLabels firingStr with
              | .error err =>
                .error ("failed to parse labels for incident ".toList ++ incidentID ++
                  ": ".toList ++ err)
              | .ok labels =>
                match asObject (goMapGet b "cef_details".toList) with
                | none => .error ("failed to parse cefDetails for incident ".toList ++ incidentID)
                | some cefDetails =>
                  match asString (goMapGet cefDetails "client_url".toList) with
                  | none => .error ("failed to find client_url for incident ".toList ++ incidentID)
                  | some clientURL =>
                    if clientURL = [] then
                      .error ("failed to find client_url for incident ".toList ++ incidentID)
                    else .ok (labels, clientURL)

/-! ## Auxiliary notions used in the statements -/

/-- The value a key holds after a block is merged, from the value it held before
(`old`) and the value the block gives it (`new`): the merge rule of `parseLabels`. -/
def mergeValue : Option Str → Option Str → Option Str
  | old, none => old
  | none, some v => some v
  | some e, some v => if e = v then some e else some (e ++ bar ++ v)

/-- The line, once trimmed and without a leading list marker, as the loop of
`extractBlockLabels` looks at it. -/
def normalizeLine (raw : Str) : Str :=
  TrimPrefix (TrimSpace raw) listMarker

/-- The line ends the labels section: its normalized form starts with `Annotations:`. -/
def isAnnotationsLine (raw : Str) : Bool :=
  HasPrefix (normalizeLine raw) annotationsMarker

/-- The text of a line before its first `=` (the whole line when it has none). -/
def beforeEq (line : Str) : Str :=
  line.takeWhile (fun c => c != '=')

/-- The whole remainder of a line after its first `=`. -/
def afterEq (line : Str) : Str :=
  (line.dropWhile (fun c => c != '=')).drop 1

/-- A label line as the narratives write it: list marker, name, `=`, value. -/
def labelLine (k v : Str) : Str :=
  listMarker ++ k ++ eqSep ++ v

/-- The body of a block (what follows the marker `Labels:`) holding the single
label line `- k=v`: newline, the line, newline. -/
def oneLabelBlock (k v : Str) : Str :=
  newline ++ labelLine k v ++ newline

/-- The matcher `convertToAlertManagerSilence` builds from one entry. -/
def matcherOf (kv : Str × Str) : Matcher :=
  { Name := kv.1, Value := kv.2, IsRegex := Contains kv.2 bar }

/-! ## Go maps: reads after writes -/

theorem goMapGet_set_self {β : Type} (m : GoMap β) (k : Str) (v : β) :
    goMapGet (goMapSet m k v) k = some v := by
  induction m with
  | nil => simp [goMapSet, goMapGet]
  | cons hd tl ih =>
    obtain ⟨k', v'⟩ := hd
    by_cases h : k' = k
    · simp [goMapSet, goMapGet, h]
    · simp [goMapSet, goMapGet, h, ih]

theorem goMapGet_set_ne {β : Type} (m : GoMap β) (k k2 : Str) (v : β) (hne : k ≠ k2) :
    goMapGet (goMapSet m k v) k2 = goMapGet m k2 := by
  induction m with
  | nil => simp [goMapSet, goMapGet, hne]
  | cons hd tl ih =>
    obtain ⟨k', v'⟩ := hd
    by_cases h : k' = k
    · subst h
      simp [goMapSet, goMapGet, hne]
    · by_cases h2 : k' = k2
      · subst h2
        simp [goMapSet, goMapGet, h]
      · simp [goMapSet, goMapGet, h, h2, ih]

theorem goMapGet_eq_none {β : Type} (m : GoMap β) (k : Str) (h : k ∉ m.map Prod.fst) :
    goMapGet m k = none := by
  induction m with
  | nil => rfl
  | cons hd tl ih =>
    obtain ⟨k', v'⟩ := hd
    simp only [List.map_cons, List.mem_cons, not_or] at h
    have h1 : k' ≠ k := fun e => h.1 e.symm
    simp [goMapGet, h1, ih h.2]

theorem goMapGet_of_mem {β : Type} (m : GoMap β) (k : Str) (v : β)
    (hnd : (m.map Prod.fst).Nodup) (h : (k, v) ∈ m) : goMapGet m k = some v := by
  induction m with
  | nil => simp at h
  | cons hd tl ih =>
    obtain ⟨k', v'⟩ := hd
    simp only [List.map_cons, List.nodup_cons] at hnd
    rcases List.mem_cons.1 h with h | h
    · cases h
      rw [goMapGet, if_pos rfl]
    · have hk : k ∈ tl.map Prod.fst := List.mem_map.2 ⟨(k, v), h, rfl⟩
      have h1 : k' ≠ k := fun e => hnd.1 (e ▸ hk)
      rw [goMapGet, if_neg h1, ih hnd.2 h]

theorem mem_of_goMapGet {β : Type} (m : GoMap β) (k : Str) (v : β)
    (h : goMapGet m k = some v) : (k, v) ∈ m := by
  induction m with
  | nil => simp [goMapGet] at h
  | cons hd tl ih =>
    obtain ⟨k', v'⟩ := hd
    by_cases h1 : k' = k
    · subst h1
      rw [goMapGet, if_pos rfl] at h
      cases h
      exact List.mem_cons_self _ _
    · rw [goMapGet, if_neg h1] at h
      exact List.mem_cons_of_mem _ (ih h)

theorem goMapSet_keys (m : LabelMap) (k v : Str) :
    (goMapSet m k v).map Prod.fst =
      if k ∈ m.map Prod.fst then m.map Prod.fst else m.map Prod.fst ++ [k] := by
  induction m with
  | nil => simp [goMapSet]
  | cons hd tl ih =>
    obtain ⟨k', v'⟩ := hd
    by_cases h : k' = k
    · subst h
      simp [goMapSet]
    · have h2 : ¬ k = k' := fun e => h e.symm
      simp only [goMapSet, h, if_false, List.map_cons, ih, List.mem_cons, h2, false_or]
      split <;> simp

theorem goMapSet_nodup (m : LabelMap) (k v : Str)
    (hnd : (m.map Prod.fst).Nodup) : ((goMapSet m k v).map Prod.fst).Nodup := by
  rw [goMapSet_keys]
  split
  · exact hnd
  · rename_i h
    exact List.Nodup.append hnd (List.nodup_singleton k) (by simpa using h)

theorem goMapSet_of_not_mem (m : LabelMap) (k v : Str)
    (h : k ∉ m.map Prod.fst) : goMapSet m k v = m ++ [(k, v)] := by
  induction m with
  | nil => rfl
  | cons hd tl ih =>
    obtain ⟨k', v'⟩ := hd
    simp only [List.map_cons, List.mem_cons, not_or] at h
    have h1 : k' ≠ k := fun e => h.1 e.symm
    simp [goMapSet, h1, ih h.2]

/-! ## The silence synthesizer -/

theorem foldl_append_singleton {α β : Type} (f : α → β) (l : List α) (acc : List β) :
    l.foldl (fun (ms : List β) a => ms ++ [f a]) acc = acc ++ l.map f := by
  induction l generalizing acc with
  | nil => simp
  | cons hd tl ih => simp [ih]

theorem convert_matchers (now1 now2 : Time) (labels : LabelMap) :
    (convertToAlertManagerSilence now1 now2 labels).Matchers = labels.map matcherOf := by
  have h := foldl_append_singleton matcherOf labels []
  simpa [convertToAlertManagerSilence, matcherOf] using h

theorem Contains_bar_iff (v : Str) : Contains v bar = true ↔ '|' ∈ v := by
  induction v with
  | nil => simp [Contains, List.isPrefixOf]
  | cons c cs ih =>
    simp only [Contains, String.toList, List.isPrefixOf, Bool.and_true, Bool.or_eq_true,
      beq_iff_eq, List.mem_cons]
    rw [ih]

theorem filter_name_map_matcherOf (labels : LabelMap) (k v : Str)
    (hnd : (labels.map Prod.fst).Nodup) (hmem : (k, v) ∈ labels) :
    (labels.map matcherOf).filter (fun m => decide (m.Name = k)) = [matcherOf (k, v)] := by
  induction labels with
  | nil => simp at hmem
  | cons hd tl ih =>
    obtain ⟨k1, v1⟩ := hd
    simp only [List.map_cons, List.nodup_cons] at hnd
    have hnone : ∀ l : LabelMap, k ∉ l.map Prod.fst →
        (l.map matcherOf).filter (fun m => decide (m.Name = k)) = [] := by
      intro l hl
      rw [List.filter_eq_nil_iff]
      intro m hm
      obtain ⟨kv, hkv, rfl⟩ := List.mem_map.1 hm
      have : kv.1 ≠ k := fun e => hl (List.mem_map.2 ⟨kv, hkv, e⟩)
      simpa [matcherOf] using this
    rcases List.mem_cons.1 hmem with h | h
    · cases h
      rw [List.map_cons, List.filter_cons_of_pos (by simp [matcherOf]), hnone tl hnd.1]
    · have hk : k ∈ tl.map Prod.fst := List.mem_map.2 ⟨(k, v), h, rfl⟩
      have h1 : k1 ≠ k := fun e => hnd.1 (e ▸ hk)
      rw [List.map_cons, List.filter_cons_of_neg (by simpa [matcherOf] using h1)]
      exact ih hnd.2 h

/-- C4. For every label map (distinct keys, in whatever order the loop visits
them), the matcher list of the silence has as many matchers as the map has
entries; every entry `(k, v)` is the one and only matcher named `k`, it carries
the value `v`, and its `IsRegex` is true exactly when `v` contains the
character `|`; and every matcher comes from an entry of the map. -/
theorem convert_one_matcher_per_label (now1 now2 : Time) (labels : LabelMap)
    (hnd : (labels.map Prod.fst).Nodup) :
    (convertToAlertManagerSilence now1 now2 labels).Matchers.length = labels.length ∧
    (∀ k v, (k, v) ∈ labels → ∃ b,
      (convertToAlertManagerSilence now1 now2 labels).Matchers.filter
          (fun m => decide (m.Name = k)) = [{ Name := k, Value := v, IsRegex := b }] ∧
        (b = true ↔ '|' ∈ v)) ∧
    (∀ m ∈ (convertToAlertManagerSilence now1 now2 labels).Matchers,
      (m.Name, m.Value) ∈ labels ∧ (m.IsRegex = true ↔ '|' ∈ m.Value)) := by
  rw [convert_matchers]
  refine ⟨by simp, ?_, ?_⟩
  · intro k v hmem
    exact ⟨Contains v bar, filter_name_map_matcherOf labels k v hnd hmem,
      Contains_bar_iff v⟩
  · intro m hm
    obtain ⟨kv, hkv, rfl⟩ := List.mem_map.1 hm
    exact ⟨hkv, Contains_bar_iff kv.2⟩

/-- C4, at the map `{alertname: HighCPU, instance: node1|node2}`. -/
theorem convert_one_matcher_per_label_witness :
    (convertToAlertManagerSilence 0 0
        [("alertname".toList, "HighCPU".toList),
         ("instance".toList, "node1|node2".toList)]).Matchers.length = 2 ∧
    (convertToAlertManagerSilence 0 0
        [("alertname".toList, "HighCPU".toList),
         ("instance".toList, "node1|node2".toList)]).Matchers =
      [{ Name := "alertname".toList, Value := "HighCPU".toList, IsRegex := false },
       { Name := "instance".toList, Value := "node1|node2".toList, IsRegex := true }] :=
  ⟨(convert_one_matcher_per_label 0 0
      [("alertname".toList, "HighCPU".toList), ("instance".toList, "node1|node2".toList)]
      (by decide)).1, by rfl⟩

/-- The window of the silence is never longer than an hour, and is a whole hour
exactly when both readings of the clock fall in the same second. -/
theorem convert_window_le (now1 now2 : Nat) (labels : LabelMap) (h : now1 ≤ now2) :
    (convertToAlertManagerSilence now1 now2 labels).EndsAt ≤
        (convertToAlertManagerSilence now1 now2 labels).StartsAt + 3600 ∧
    ((convertToAlertManagerSilence now1 now2 labels).EndsAt =
        (convertToAlertManagerSilence now1 now2 labels).StartsAt + 3600 ↔
      now1 / 1000000000 = now2 / 1000000000) := by
  have h1 : (now1 + 3600 * 1000000000) / 1000000000 = now1 / 1000000000 + 3600 := by omega
  have h2 : now1 / 1000000000 ≤ now2 / 1000000000 := Nat.div_le_div_right h
  simp only [convertToAlertManagerSilence, formatRFC3339, Hour, h1]
  omega

/-- C5. With the first reading of the clock at 0.999999999 s and the second,
not earlier, at 1.000000000 s, the silence starts at second 1 and ends at second
3600: its window is 3599 seconds, not 3600. -/
theorem convert_window_short_across_second_boundary :
    (999999999 : Nat) ≤ 1000000000 ∧
    (convertToAlertManagerSilence 999999999 1000000000 []).StartsAt = 1 ∧
    (convertToAlertManagerSilence 999999999 1000000000 []).EndsAt = 3600 ∧
    (convertToAlertManagerSilence 999999999 1000000000 []).EndsAt ≠
      (convertToAlertManagerSilence 999999999 1000000000 []).StartsAt + 3600 := by
  refine ⟨by decide, ?_, ?_, ?_⟩ <;>
    simp [convertToAlertManagerSilence, formatRFC3339, Hour]

/-! ## The merge of a block into the running map -/

theorem goMapGet_mergeEntry_self (m : LabelMap) (k v : Str) :
    goMapGet (mergeEntry m k v) k = mergeValue (goMapGet m k) (some v) := by
  unfold mergeEntry
  cases h : goMapGet m k with
  | none => simp [mergeValue, goMapGet_set_self]
  | some e =>
    by_cases he : e = v
    · simp [mergeValue, he, h]
    · simp [mergeValue, he, goMapGet_set_self]

theorem goMapGet_mergeEntry_ne (m : LabelMap) (k k2 v : Str) (hne : k ≠ k2) :
    goMapGet (mergeEntry m k v) k2 = goMapGet m k2 := by
  unfold mergeEntry
  cases h : goMapGet m k with
  | none => simp [goMapGet_set_ne _ _ _ _ hne]
  | some e =>
    by_cases he : e = v
    · simp [he]
    · simp [he, goMapGet_set_ne _ _ _ _ hne]

theorem mergeEntry_nodup (m : LabelMap) (k v : Str) (hnd : (m.map Prod.fst).Nodup) :
    ((mergeEntry m k v).map Prod.fst).Nodup := by
  unfold mergeEntry
  cases h : goMapGet m k with
  | none => exact goMapSet_nodup m k v hnd
  | some e =>
    by_cases he : e = v
    · simpa [he] using hnd
    · simpa [he] using goMapSet_nodup m k _ hnd

theorem mergeBlock_nodup (m bl : LabelMap) (hnd : (m.map Prod.fst).Nodup) :
    ((mergeBlock m bl).map Prod.fst).Nodup := by
  induction bl generalizing m with
  | nil => exact hnd
  | cons hd tl ih => exact ih _ (mergeEntry_nodup m hd.1 hd.2 hnd)

/-- What a key holds after a block is merged: the merge rule applied to what it
held before and what the block gives it. -/
theorem goMapGet_mergeBlock (m bl : LabelMap) (k : Str) (hnd : (bl.map Prod.fst).Nodup) :
    goMapGet (mergeBlock m bl) k = mergeValue (goMapGet m k) (goMapGet bl k) := by
  induction bl generalizing m with
  | nil => simp [mergeBlock, goMapGet, mergeValue]
  | cons hd tl ih =>
    obtain ⟨k1, v1⟩ := hd
    simp only [List.map_cons, List.nodup_cons] at hnd
    have hstep : mergeBlock m ((k1, v1) :: tl) = mergeBlock (mergeEntry m k1 v1) tl := rfl
    rw [hstep, ih _ hnd.2]
    by_cases h : k1 = k
    · subst h
      rw [goMapGet_eq_none tl k1 hnd.1, goMapGet_mergeEntry_self]
      simp [goMapGet, mergeValue]
    · rw [goMapGet_mergeEntry_ne _ _ _ _ h]
      simp [goMapGet, h]

theorem goMapGet_perm (m1 m2 : LabelMap) (k : Str) (hp : m1.Perm m2)
    (hnd : (m1.map Prod.fst).Nodup) : goMapGet m1 k = goMapGet m2 k := by
  have hnd2 : (m2.map Prod.fst).Nodup := (hp.map Prod.fst).nodup_iff.1 hnd
  cases h : goMapGet m1 k with
  | none =>
    cases h2 : goMapGet m2 k with
    | none => rfl
    | some v =>
      have := goMapGet_of_mem m1 k v hnd (hp.mem_iff.2 (mem_of_goMapGet m2 k v h2))
      rw [h] at this
      cases this
  | some v =>
    exact (goMapGet_of_mem m2 k v hnd2 (hp.mem_iff.1 (mem_of_goMapGet m1 k v h))).symm

/-- The merge loop does not depend on the order in which the entries of the
block's map are visited. -/
theorem mergeBlock_perm (m bl1 bl2 : LabelMap) (k : Str) (hp : bl1.Perm bl2)
    (hnd : (bl1.map Prod.fst).Nodup) :
    goMapGet (mergeBlock m bl1) k = goMapGet (mergeBlock m bl2) k := by
  have hnd2 : (bl2.map Prod.fst).Nodup := (hp.map Prod.fst).nodup_iff.1 hnd
  rw [goMapGet_mergeBlock m bl1 k hnd, goMapGet_mergeBlock m bl2 k hnd2,
    goMapGet_perm bl1 bl2 k hp hnd]

/-! ## Totality and key distinctness of the extractor -/

theorem extractLoop_nodup (lines : List Str) (b : Bool) (labels : LabelMap)
    (hnd : (labels.map Prod.fst).Nodup) :
    ((extractLoop lines b labels).map Prod.fst).Nodup := by
  induction lines generalizing b labels with
  | nil => exact hnd
  | cons raw rest ih =>
    simp only [extractLoop]
    split
    · exact ih _ _ hnd
    · split
      · exact hnd
      · split
        · split
          · exact ih _ _ (goMapSet_nodup _ _ _ hnd)
          · exact ih _ _ hnd
        · exact ih _ _ hnd

theorem extractBlockLabels_ok (block : Str) :
    extractBlockLabels block = .ok (extractLoop (Split block newline) false []) := rfl

theorem parseLoop_cons_blank (block : Str) (rest : List Str) (m : LabelMap)
    (h : TrimSpace block = []) : parseLoop (block :: rest) m = parseLoop rest m := by
  simp [parseLoop, h]

theorem parseLoop_cons (block : Str) (rest : List Str) (m : LabelMap)
    (h : TrimSpace block ≠ []) :
    parseLoop (block :: rest) m =
      parseLoop rest
        (mergeBlock m (extractLoop (Split (labelsMarker ++ block) newline) false [])) := by
  simp [parseLoop, h, extractBlockLabels]

theorem parseLoop_total (blocks : List Str) (m : LabelMap) :
    ∃ out, parseLoop blocks m = .ok out := by
  induction blocks generalizing m with
  | nil => exact ⟨m, rfl⟩
  | cons block rest ih =>
    by_cases h : TrimSpace block = []
    · rw [parseLoop_cons_blank _ _ _ h]
      exact ih m
    · rw [parseLoop_cons _ _ _ h]
      exact ih _

/-- The parser never fails: every firing string has a label map. -/
theorem parseLabels_total (firingStr : Str) : ∃ labels, parseLabels firingStr = .ok labels :=
  parseLoop_total _ _

theorem parseLoop_nodup (blocks : List Str) (m out : LabelMap)
    (hnd : (m.map Prod.fst).Nodup) (h : parseLoop blocks m = .ok out) :
    (out.map Prod.fst).Nodup := by
  induction blocks generalizing m with
  | nil =>
    simp only [parseLoop, Except.ok.injEq] at h
    exact h ▸ hnd
  | cons block rest ih =>
    by_cases hb : TrimSpace block = []
    · rw [parseLoop_cons_blank _ _ _ hb] at h
      exact ih m hnd h
    · rw [parseLoop_cons _ _ _ hb] at h
      exact ih _ (mergeBlock_nodup _ _ hnd) h

/-! ## `getEventDetails` and empty label maps -/

/-- C3, as the code has it. When the first alert body has a `details.firing`
string that is not empty and a `cef_details.client_url` string that is not
empty, `getEventDetails` succeeds with the labels parsed from the firing string
and the client URL, whatever the labels are (an empty map included). -/
theorem getEventDetails_ok_of_fields (b details cefDetails : GoMap JSONValue)
    (rest : List IncidentAlert) (incidentID firingStr clientURL : Str)
    (hd : goMapGet b "details".toList = some (.obj details))
    (hf : goMapGet details "firing".toList = some (.str firingStr))
    (hfne : firingStr ≠ [])
    (hc : goMapGet b "cef_details".toList = some (.obj cefDetails))
    (hu : goMapGet cefDetails "client_url".toList = some (.str clientURL))
    (hune : clientURL ≠ []) :
    ∃ labels, parseLabels firingStr = .ok labels ∧
      getEventDetails (.ok ({ Body := some b } :: rest)) incidentID = .ok (labels, clientURL) := by
  obtain ⟨labels, hl⟩ := parseLabels_total firingStr
  refine ⟨labels, hl, ?_⟩
  simp only [getEventDetails, hd, hf, asObject, asString, hl, hc, hu, if_neg hfne, if_neg hune]

/-- C3 (as amended), at an incident whose firing text has one block with one label. -/
theorem getEventDetails_ok_of_fields_witness :
    ∃ labels, parseLabels "Labels:\n - alertname = HighCPU".toList = .ok labels ∧
      getEventDetails
        (.ok [IncidentAlert.mk (some
          [("details".toList,
              .obj [("firing".toList, .str "Labels:\n - alertname = HighCPU".toList)]),
           ("cef_details".toList,
              .obj [("client_url".toList, .str "http://am:9093/#/alerts".toList)])])])
        "PINC1".toList = .ok (labels, "http://am:9093/#/alerts".toList) :=
  getEventDetails_ok_of_fields _ [("firing".toList, .str "Labels:\n - alertname = HighCPU".toList)]
    [("client_url".toList, .str "http://am:9093/#/alerts".toList)] [] "PINC1".toList
    "Labels:\n - alertname = HighCPU".toList "http://am:9093/#/alerts".toList
    (by rfl) (by rfl) (by decide) (by rfl) (by rfl) (by decide)

/-- C3 fails as stated: the firing string `resolved` has no `Labels:` marker and
parses to the empty label map, the client URL is not empty, and
`getEventDetails` returns the successful result (empty map, client URL), not
an error. -/
theorem getEventDetails_accepts_empty_labels :
    Contains "resolved".toList labelsMarker = false ∧
    parseLabels "resolved".toList = .ok [] ∧
    getEventDetails
      (.ok [IncidentAlert.mk (some
        [("details".toList, .obj [("firing".toList, .str "resolved".toList)]),
         ("cef_details".toList,
            .obj [("client_url".toList, .str "http://am:9093/#/alerts".toList)])])])
      "PINC1".toList = .ok ([], "http://am:9093/#/alerts".toList) :=
  ⟨by rfl, by rfl, by rfl⟩

/-! ## Empty values -/

theorem mergeValue_nonempty_left (w : Str) (x : Option Str) (hw : w ≠ []) :
    ∃ w2, mergeValue (some w) x = some w2 ∧ w2 ≠ [] := by
  cases x with
  | none => exact ⟨w, rfl, hw⟩
  | some v =>
    by_cases he : w = v
    · exact ⟨w, by simp [mergeValue, he], hw⟩
    · exact ⟨w ++ bar ++ v, by simp [mergeValue, he], by simp [bar]⟩

theorem mergeValue_nonempty_right (o : Option Str) (v : Str) (hv : v ≠ []) :
    ∃ w2, mergeValue o (some v) = some w2 ∧ w2 ≠ [] := by
  cases o with
  | none => exact ⟨v, rfl, hv⟩
  | some e =>
    by_cases he : e = v
    · exact ⟨e, by simp [mergeValue, he], he ▸ hv⟩
    · exact ⟨e ++ bar ++ v, by simp [mergeValue, he], by simp [bar]⟩

theorem parseLoop_keeps_nonempty (blocks : List Str) (m : LabelMap) (k w : Str)
    (hget : goMapGet m k = some w) (hw : w ≠ []) :
    ∃ out w2, parseLoop blocks m = .ok out ∧ goMapGet out k = some w2 ∧ w2 ≠ [] := by
  induction blocks generalizing m w with
  | nil => exact ⟨m, w, rfl, hget, hw⟩
  | cons block rest ih =>
    by_cases hb : TrimSpace block = []
    · rw [parseLoop_cons_blank _ _ _ hb]
      exact ih m w hget hw
    · rw [parseLoop_cons _ _ _ hb]
      obtain ⟨w2, h2, hw2⟩ := mergeValue_nonempty_left w
        (goMapGet (extractLoop (Split (labelsMarker ++ block) newline) false []) k) hw
      refine ih _ w2 ?_ hw2
      rw [goMapGet_mergeBlock _ _ _ (extractLoop_nodup _ _ _ (by simp)), hget, h2]

theorem parseLoop_nonempty_of_block (blocks : List Str) (m : LabelMap) (block k v : Str)
    (hmem : block ∈ blocks) (hb : TrimSpace block ≠ [])
    (hget : goMapGet (extractLoop (Split (labelsMarker ++ block) newline) false []) k
      = some v)
    (hv : v ≠ []) :
    ∃ out w, parseLoop blocks m = .ok out ∧ goMapGet out k = some w ∧ w ≠ [] := by
  induction blocks generalizing m with
  | nil => simp at hmem
  | cons hd rest ih =>
    by_cases hhd : TrimSpace hd = []
    · rw [parseLoop_cons_blank _ _ _ hhd]
      rcases List.mem_cons.1 hmem with h | h
      · exact absurd (h ▸ hhd) hb
      · exact ih m h
    · rw [parseLoop_cons _ _ _ hhd]
      rcases List.mem_cons.1 hmem with h | h
      · subst h
        obtain ⟨w2, h2, hw2⟩ := mergeValue_nonempty_right (goMapGet m k) v hv
        refine parseLoop_keeps_nonempty rest _ k w2 ?_ hw2
        rw [goMapGet_mergeBlock _ _ _ (extractLoop_nodup _ _ _ (by simp)), hget, h2]
      · exact ih _ h

/-- C9, as the code has it. If one of the blocks the parser processes gives the key
`k` a non-empty value (the value its last label line for `k` assigns), then
the merge with the blocks before and after never replaces it with the empty
string: `parseLabels` succeeds and maps `k` to a non-empty value. -/
theorem parseLabels_nonempty_of_block (firingStr block k v : Str) (blockLabels : LabelMap)
    (hmem : block ∈ Split firingStr labelsMarker) (hb : TrimSpace block ≠ [])
    (hbl : extractBlockLabels (labelsMarker ++ block) = .ok blockLabels)
    (hget : goMapGet blockLabels k = some v) (hv : v ≠ []) :
    ∃ labels w, parseLabels firingStr = .ok labels ∧ goMapGet labels k = some w ∧ w ≠ [] := by
  rw [extractBlockLabels_ok] at hbl
  cases hbl
  exact parseLoop_nonempty_of_block _ [] block k v hmem hb hget hv

/-- C9 (as amended), at two blocks: `k=v` in the first, `k=` in the second. -/
theorem parseLabels_nonempty_of_block_witness :
    ∃ labels w, parseLabels "Labels:\nk=v\nLabels:\nk=".toList = .ok labels ∧
      goMapGet labels "k".toList = some w ∧ w ≠ [] :=
  parseLabels_nonempty_of_block "Labels:\nk=v\nLabels:\nk=".toList "\nk=v\n".toList
    "k".toList "v".toList [("k".toList, "v".toList)]
    (by decide) (by decide) (by rfl) (by rfl) (by decide)

/-- C9 fails as stated: in the block `Labels:`, `k=v`, `k=` the first label line
gives `k` the non-empty value `v` (the parse of the first two lines alone maps
`k` to `v`) and the later line `k=` of the same block replaces it: `parseLabels`
maps `k` to the empty string. -/
theorem parseLabels_later_line_overwrites_with_empty :
    parseLabels "Labels:\nk=v".toList = .ok [("k".toList, "v".toList)] ∧
    parseLabels "Labels:\nk=v\nk=".toList = .ok [("k".toList, [])] :=
  ⟨by rfl, by rfl⟩

/-! ## Label lines: the split at the first `=` -/

theorem beforeEq_afterEq (line : Str) (h : '=' ∈ line) :
    line = beforeEq line ++ '=' :: afterEq line ∧ '=' ∉ beforeEq line := by
  induction line with
  | nil => simp at h
  | cons c cs ih =>
    by_cases hc : c = '='
    · subst hc
      simp [beforeEq, afterEq]
    · have hmem : '=' ∈ cs := by
        rcases List.mem_cons.1 h with h | h
        · exact absurd h.symm hc
        · exact h
      have h1 := ih hmem
      have hne : (c != '=') = true := by simpa using hc
      have hb : beforeEq (c :: cs) = c :: beforeEq cs := by
        simp [beforeEq, List.takeWhile_cons, hne]
      have ha : afterEq (c :: cs) = afterEq cs := by
        simp [afterEq, List.dropWhile_cons, hne]
      rw [hb, ha]
      refine ⟨?_, ?_⟩
      · rw [List.cons_append, ← h1.1]
      · intro hm
        rcases List.mem_cons.1 hm with hm | hm
        · exact hc hm.symm
        · exact h1.2 hm

theorem splitNScan_zero (sep s : Str) : splitNScan sep 0 0 s [] = [s] := by
  cases s <;> simp [splitNScan]

theorem splitNScan_eq (s cur : Str) :
    splitNScan eqSep 1 0 s cur =
      if '=' ∈ s then [cur.reverse ++ beforeEq s, afterEq s] else [cur.reverse ++ s] := by
  induction s generalizing cur with
  | nil => simp [splitNScan]
  | cons c cs ih =>
    by_cases hc : c = '='
    · subst hc
      simp only [splitNScan, beforeEq, afterEq, List.isPrefixOf, eqSep, String.toList,
        List.mem_cons, true_or, if_true, List.takeWhile_cons, List.dropWhile_cons, bne_self_eq_false,
        List.append_nil, List.drop_succ_cons, List.drop_zero, beq_self_eq_true, Bool.and_true,
        Bool.false_eq_true, if_false, List.length_cons, List.length_nil]
      exact congrArg _ (splitNScan_zero _ cs)
    · have hne : (c != '=') = true := by simpa using hc
      have hne2 : ¬ '=' = c := fun e => hc e.symm
      have hb : beforeEq (c :: cs) = c :: beforeEq cs := by
        simp [beforeEq, List.takeWhile_cons, hne]
      have ha : afterEq (c :: cs) = afterEq cs := by
        simp [afterEq, List.dropWhile_cons, hne]
      have hstep : splitNScan eqSep 1 0 (c :: cs) cur
          = splitNScan eqSep 1 0 cs (c :: cur) := by
        simp [splitNScan, List.isPrefixOf, hne2]
      rw [hstep, ih, hb, ha]
      simp [hne2]

/-- Go `SplitN(line, "=", 2)`: two parts, cut at the first `=`, when the line has
an `=`; the line alone otherwise. -/
theorem SplitN_eq (line : Str) :
    SplitN line eqSep 2 =
      if '=' ∈ line then [beforeEq line, afterEq line] else [line] := by
  have h := splitNScan_eq line []
  simpa [SplitN] using h

/-- One turn of the loop of `extractBlockLabels`, with the split spelled out. -/
theorem extractLoop_cons (raw : Str) (rest : List Str) (b : Bool) (labels : LabelMap) :
    extractLoop (raw :: rest) b labels =
      if HasPrefix (normalizeLine raw) labelsMarker then extractLoop rest true labels
      else if isAnnotationsLine raw then labels
      else if b = true ∧ '=' ∈ normalizeLine raw then
        extractLoop rest b (goMapSet labels (TrimSpace (beforeEq (normalizeLine raw)))
          (TrimSpace (afterEq (normalizeLine raw))))
      else extractLoop rest b labels := by
  simp only [extractLoop, isAnnotationsLine, normalizeLine, SplitN_eq]
  by_cases h1 : HasPrefix (TrimPrefix (TrimSpace raw) listMarker) labelsMarker = true
  · simp [h1]
  · by_cases h2 : HasPrefix (TrimPrefix (TrimSpace raw) listMarker) annotationsMarker = true
    · simp [h1, h2]
    · cases b
      · simp [h1, h2]
      · by_cases h3 : '=' ∈ TrimPrefix (TrimSpace raw) listMarker
        · simp [h1, h2, h3]
        · simp [h1, h2, h3]

/-- C6. A line the loop of `extractBlockLabels` reaches inside the labels section
that is no `Labels:` or `Annotations:` marker and contains `=` is split at its
first `=` only: the line is `before ++ "=" ++ after` with no `=` in `before`,
and the loop goes on with the label `TrimSpace before` set to `TrimSpace after`
(the whole remainder, further `=` included).  The block `Labels:` followed by
the line `url=https://x.com/a=b` gives `url` the value `https://x.com/a=b`. -/
theorem extractLoop_splits_at_first_eq :
    (∀ (raw : Str) (rest : List Str) (labels : LabelMap),
      HasPrefix (normalizeLine raw) labelsMarker = false →
      isAnnotationsLine raw = false →
      '=' ∈ normalizeLine raw →
      (normalizeLine raw = beforeEq (normalizeLine raw) ++ '=' :: afterEq (normalizeLine raw) ∧
        '=' ∉ beforeEq (normalizeLine raw)) ∧
      extractLoop (raw :: rest) true labels =
        extractLoop rest true
          (goMapSet labels (TrimSpace (beforeEq (normalizeLine raw)))
            (TrimSpace (afterEq (normalizeLine raw))))) ∧
    extractBlockLabels "Labels:\nurl=https://x.com/a=b".toList =
      .ok [("url".toList, "https://x.com/a=b".toList)] := by
  refine ⟨?_, by rfl⟩
  intro raw rest labels hL hA heq
  refine ⟨beforeEq_afterEq _ heq, ?_⟩
  rw [extractLoop_cons]
  simp [hL, hA, heq]

/-- C6, at the line `  - url = https://x.com/a=b` reached inside the labels section. -/
theorem extractLoop_splits_at_first_eq_witness :
    extractLoop ["  - url = https://x.com/a=b".toList, "job=x".toList] true [] =
      extractLoop ["job=x".toList] true [("url".toList, "https://x.com/a=b".toList)] :=
  (extractLoop_splits_at_first_eq.1 "  - url = https://x.com/a=b".toList ["job=x".toList] []
    (by rfl) (by rfl) (by decide)).2

/-! ## Where the keys come from -/

theorem TrimSpace_eq_nil_iff (s : Str) : TrimSpace s = [] ↔ ∀ c ∈ s, isSpace c = true := by
  unfold TrimSpace
  rw [List.reverse_eq_nil_iff, List.dropWhile_eq_nil_iff]
  constructor
  · intro h
    have hnil : s.dropWhile isSpace = [] := by
      by_contra hne
      have hhead := List.head_dropWhile_not isSpace s hne
      have hmem : (s.dropWhile isSpace).head hne ∈ (s.dropWhile isSpace).reverse :=
        List.mem_reverse.2 (List.head_mem hne)
      rw [h _ hmem] at hhead
      cases hhead
    exact List.dropWhile_eq_nil_iff.1 hnil
  · intro h c hc
    have hnil : s.dropWhile isSpace = [] := List.dropWhile_eq_nil_iff.2 h
    rw [hnil] at hc
    simp at hc

theorem goMapSet_key_mem (m : LabelMap) (k v k2 : Str)
    (h : k2 ∈ (goMapSet m k v).map Prod.fst) : k2 ∈ m.map Prod.fst ∨ k2 = k := by
  rw [goMapSet_keys] at h
  split at h
  · exact Or.inl h
  · rcases List.mem_append.1 h with h | h
    · exact Or.inl h
    · exact Or.inr (List.mem_singleton.1 h)

theorem mergeEntry_key_mem (m : LabelMap) (k v k2 : Str)
    (h : k2 ∈ (mergeEntry m k v).map Prod.fst) : k2 ∈ m.map Prod.fst ∨ k2 = k := by
  unfold mergeEntry at h
  cases hg : goMapGet m k with
  | none =>
    rw [hg] at h
    exact goMapSet_key_mem m k v k2 h
  | some e =>
    rw [hg] at h
    by_cases he : e = v
    · simp only [he, ne_eq, not_true_eq_false, if_false] at h
      exact Or.inl h
    · simp only [he, ne_eq, not_false_eq_true, if_true] at h
      exact goMapSet_key_mem m k _ k2 h

theorem mergeBlock_key_mem (m bl : LabelMap) (k : Str)
    (h : k ∈ (mergeBlock m bl).map Prod.fst) : k ∈ m.map Prod.fst ∨ k ∈ bl.map Prod.fst := by
  induction bl generalizing m with
  | nil => exact Or.inl h
  | cons hd tl ih =>
    have hstep : mergeBlock m (hd :: tl) = mergeBlock (mergeEntry m hd.1 hd.2) tl := rfl
    rw [hstep] at h
    rcases ih _ h with h1 | h1
    · rcases mergeEntry_key_mem m hd.1 hd.2 k h1 with h2 | h2
      · exact Or.inl h2
      · exact Or.inr (by rw [h2]; exact List.mem_map.2 ⟨hd, List.mem_cons_self _ _, rfl⟩)
    · exact Or.inr (by
        obtain ⟨kv, hkv, hk⟩ := List.mem_map.1 h1
        exact List.mem_map.2 ⟨kv, List.mem_cons_of_mem _ hkv, hk⟩)

theorem extractLoop_key_provenance (lines : List Str) (b : Bool) (labels : LabelMap) (k : Str)
    (h : k ∈ (extractLoop lines b labels).map Prod.fst) :
    k ∈ labels.map Prod.fst ∨
      ∃ raw ∈ lines, '=' ∈ normalizeLine raw ∧ k = TrimSpace (beforeEq (normalizeLine raw)) := by
  induction lines generalizing b labels with
  | nil => exact Or.inl h
  | cons raw rest ih =>
    have lift : (k ∈ labels.map Prod.fst ∨
        ∃ r ∈ rest, '=' ∈ normalizeLine r ∧ k = TrimSpace (beforeEq (normalizeLine r))) →
        (k ∈ labels.map Prod.fst ∨
        ∃ r ∈ raw :: rest, '=' ∈ normalizeLine r ∧ k = TrimSpace (beforeEq (normalizeLine r))) := by
      rintro (h1 | ⟨r, hr, h2⟩)
      · exact Or.inl h1
      · exact Or.inr ⟨r, List.mem_cons_of_mem _ hr, h2⟩
    rw [extractLoop_cons] at h
    split at h
    · exact lift (ih _ _ h)
    · split at h
      · exact Or.inl h
      · split at h
        · rename_i hcond
          rcases ih _ _ h with h1 | h1
          · rcases goMapSet_key_mem _ _ _ _ h1 with h2 | h2
            · exact Or.inl h2
            · exact Or.inr ⟨raw, List.mem_cons_self _ _, hcond.2, h2⟩
          · exact lift (Or.inr h1)
        · exact lift (ih _ _ h)

theorem parseLoop_key_provenance (blocks : List Str) (m out : LabelMap) (k : Str)
    (h : parseLoop blocks m = .ok out) (hk : k ∈ out.map Prod.fst) :
    k ∈ m.map Prod.fst ∨
      ∃ block ∈ blocks, ∃ raw ∈ Split (labelsMarker ++ block) newline,
        '=' ∈ normalizeLine raw ∧ k = TrimSpace (beforeEq (normalizeLine raw)) := by
  induction blocks generalizing m with
  | nil =>
    simp only [parseLoop, Except.ok.injEq] at h
    exact Or.inl (h ▸ hk)
  | cons block rest ih =>
    have lift : (∃ bl ∈ rest, ∃ raw ∈ Split (labelsMarker ++ bl) newline,
        '=' ∈ normalizeLine raw ∧ k = TrimSpace (beforeEq (normalizeLine raw))) →
        ∃ bl ∈ block :: rest, ∃ raw ∈ Split (labelsMarker ++ bl) newline,
        '=' ∈ normalizeLine raw ∧ k = TrimSpace (beforeEq (normalizeLine raw)) := by
      rintro ⟨bl, hbl, h2⟩
      exact ⟨bl, List.mem_cons_of_mem _ hbl, h2⟩
    by_cases hb : TrimSpace block = []
    · rw [parseLoop_cons_blank _ _ _ hb] at h
      rcases ih m h with h1 | h1
      · exact Or.inl h1
      · exact Or.inr (lift h1)
    · rw [parseLoop_cons _ _ _ hb] at h
      rcases ih _ h with h1 | h1
      · rcases mergeBlock_key_mem _ _ _ h1 with h2 | h2
        · exact Or.inl h2
        · rcases extractLoop_key_provenance _ _ _ _ h2 with h3 | h3
          · simp at h3
          · exact Or.inr ⟨block, List.mem_cons_self _ _, h3⟩
      · exact Or.inr (lift h1)

/-- C8, as the code has it. Every key of the label map returned by `parseLabels` is
the white-space-trimmed text before the first `=` of a line of one of the
blocks (the line trimmed and without a leading list marker); the key is
non-empty exactly when that text has a character that is not white space. -/
theorem parseLabels_key_is_trimmed_name (firingStr : Str) (labels : LabelMap) (k : Str)
    (h : parseLabels firingStr = .ok labels) (hk : k ∈ labels.map Prod.fst) :
    ∃ block ∈ Split firingStr labelsMarker, ∃ raw ∈ Split (labelsMarker ++ block) newline,
      '=' ∈ normalizeLine raw ∧ k = TrimSpace (beforeEq (normalizeLine raw)) ∧
      (k ≠ [] ↔ ∃ c ∈ beforeEq (normalizeLine raw), isSpace c = false) := by
  rcases parseLoop_key_provenance _ _ _ k h hk with h1 | ⟨block, hb, raw, hr, heq, hkeq⟩
  · simp at h1
  · refine ⟨block, hb, raw, hr, heq, hkeq, ?_⟩
    rw [hkeq, ne_eq, TrimSpace_eq_nil_iff]
    constructor
    · intro hne
      by_contra hall
      exact hne (fun c hc => by
        by_contra hc2
        exact hall ⟨c, hc, by simpa using hc2⟩)
    · rintro ⟨c, hc, hsp⟩ hall
      rw [hall c hc] at hsp
      cases hsp

/-- C8 (as amended), at the key `alertname` of a one-block narrative. -/
theorem parseLabels_key_is_trimmed_name_witness :
    ∃ block ∈ Split "Labels:\n - alertname = HighCPU".toList labelsMarker,
      ∃ raw ∈ Split (labelsMarker ++ block) newline,
        '=' ∈ normalizeLine raw ∧ "alertname".toList = TrimSpace (beforeEq (normalizeLine raw)) ∧
        ("alertname".toList ≠ [] ↔ ∃ c ∈ beforeEq (normalizeLine raw), isSpace c = false) :=
  parseLabels_key_is_trimmed_name "Labels:\n - alertname = HighCPU".toList
    [("alertname".toList, "HighCPU".toList)] "alertname".toList (by rfl) (by decide)

/-- C8 fails as stated: the narrative `Labels:` followed by the line `=v` parses
to a map whose only key is the empty string. -/
theorem parseLabels_empty_key :
    parseLabels "Labels:\n=v".toList = .ok [([], "v".toList)] := by
  rfl

/-! ## Lines: `Split` at the newline undoes `Join` -/

theorem splitScan_newline_line (l rest cur : Str) (hl : '\n' ∉ l) :
    splitScan newline 0 (l ++ rest) cur = splitScan newline 0 rest (l.reverse ++ cur) := by
  induction l generalizing cur with
  | nil => rfl
  | cons c cs ih =>
    simp only [List.mem_cons, not_or] at hl
    have hne : ¬ '\n' = c := hl.1
    have hstep : splitScan newline 0 (c :: cs ++ rest) cur
        = splitScan newline 0 (cs ++ rest) (c :: cur) := by
      simp [splitScan, newline, List.isPrefixOf, hne]
    rw [hstep, ih _ hl.2]
    simp

theorem splitScan_newline_cut (rest cur : Str) :
    splitScan newline 0 ('\n' :: rest) cur = cur.reverse :: splitScan newline 0 rest [] := by
  simp [splitScan, newline, List.isPrefixOf]

theorem splitScan_join (l : Str) (ls : List Str) (cur : Str) (hl : '\n' ∉ l)
    (hls : ∀ x ∈ ls, '\n' ∉ x) :
    splitScan newline 0 (Join (l :: ls) newline) cur = (cur.reverse ++ l) :: ls := by
  induction ls generalizing l cur with
  | nil =>
    have h := splitScan_newline_line l [] cur hl
    simp only [List.append_nil] at h
    simp [Join, h, splitScan]
  | cons l2 rest ih =>
    have hj : Join (l :: l2 :: rest) newline = l ++ '\n' :: Join (l2 :: rest) newline := by
      simp [Join, newline]
    rw [hj, splitScan_newline_line _ _ _ hl, splitScan_newline_cut,
      ih l2 [] (hls l2 (List.mem_cons_self _ _))
        (fun x hx => hls x (List.mem_cons_of_mem _ hx))]
    simp

/-- The lines of a text made by joining lines (none of which has a newline) with
newlines are those lines. -/
theorem Split_Join (l : Str) (ls : List Str) (hl : '\n' ∉ l) (hls : ∀ x ∈ ls, '\n' ∉ x) :
    Split (Join (l :: ls) newline) newline = l :: ls := by
  have h := splitScan_join l ls [] hl hls
  simpa [Split] using h

/-! ## The end of the labels section -/

theorem not_labels_of_annotations (s : Str) (h : HasPrefix s annotationsMarker = true) :
    HasPrefix s labelsMarker = false := by
  cases s with
  | nil => simp [HasPrefix, annotationsMarker, List.isPrefixOf] at h
  | cons c cs =>
    simp only [HasPrefix, annotationsMarker, String.toList, List.isPrefixOf, Bool.and_eq_true,
      beq_iff_eq] at h
    have hc : c = 'A' := h.1.symm
    subst hc
    simp [HasPrefix, labelsMarker, List.isPrefixOf]

theorem extractLoop_annotations (a : Str) (post : List Str) (b : Bool) (labels : LabelMap)
    (ha : isAnnotationsLine a = true) : extractLoop (a :: post) b labels = labels := by
  rw [extractLoop_cons]
  have hL := not_labels_of_annotations (normalizeLine a) ha
  simp [hL, ha]

theorem extractLoop_append_annotations (pre : List Str) (a : Str) (post : List Str) (b : Bool)
    (labels : LabelMap) (ha : isAnnotationsLine a = true) :
    extractLoop (pre ++ a :: post) b labels = extractLoop pre b labels := by
  induction pre generalizing b labels with
  | nil => simpa [extractLoop] using extractLoop_annotations a post b labels ha
  | cons raw rest ih =>
    rw [List.cons_append, extractLoop_cons, extractLoop_cons, ih, ih, ih]

/-- C7. In a block given by its lines, everything from a line whose normalized
form starts with `Annotations:` on is ignored: the labels of the block are the
labels of the block cut just before that line (whatever the lines after it
hold, `key=value` lines included).  E2E scenario A parses to
`alertname = HighCPU`, `instance = node1` and nothing else. -/
theorem extractBlockLabels_stops_at_annotations :
    (∀ (pre : List Str) (a : Str) (post : List Str),
      (∀ l ∈ pre ++ a :: post, '\n' ∉ l) → isAnnotationsLine a = true →
      extractBlockLabels (Join (pre ++ a :: post) newline) =
        extractBlockLabels (Join pre newline)) ∧
    parseLabels
        "- Labels:\n  - alertname=HighCPU\n  - instance=node1\n- Annotations:\n  - summary=CPU high".toList
      = .ok [("alertname".toList, "HighCPU".toList), ("instance".toList, "node1".toList)] := by
  refine ⟨?_, by rfl⟩
  intro pre a post hnl ha
  simp only [extractBlockLabels_ok]
  congr 1
  cases pre with
  | nil =>
    rw [List.nil_append,
      Split_Join a post (hnl a (by simp)) (fun x hx => hnl x (by simp [hx]))]
    rw [extractLoop_annotations a post false [] ha]
    rfl
  | cons l ls =>
    have h1 : Split (Join (l :: ls ++ a :: post) newline) newline = l :: ls ++ a :: post := by
      rw [List.cons_append]
      exact Split_Join l (ls ++ a :: post) (hnl l (by simp))
        (fun x hx => hnl x (by
          rcases List.mem_append.1 hx with h | h
          · simp [h]
          · exact List.mem_append_right _ h))
    have h2 : Split (Join (l :: ls) newline) newline = l :: ls :=
      Split_Join l ls (hnl l (by simp)) (fun x hx => hnl x (by simp [hx]))
    rw [h1, h2]
    exact extractLoop_append_annotations (l :: ls) a post false [] ha

/-- C7, at the block of E2E scenario A: cut before the line `- Annotations:`. -/
theorem extractBlockLabels_stops_at_annotations_witness :
    extractBlockLabels
        (Join (["Labels:".toList, "  - alertname=HighCPU".toList, "  - instance=node1".toList] ++
          "- Annotations:".toList :: ["  - summary=CPU high".toList]) newline) =
      extractBlockLabels
        (Join ["Labels:".toList, "  - alertname=HighCPU".toList, "  - instance=node1".toList]
          newline) :=
  extractBlockLabels_stops_at_annotations.1
    ["Labels:".toList, "  - alertname=HighCPU".toList, "  - instance=node1".toList]
    "- Annotations:".toList ["  - summary=CPU high".toList] (by decide) (by rfl)

/-! ## Text before the first marker -/

/-- C2. The narrative `FIRING`, newline, `Source: http://prom/graph?expr=up` has
no `Labels:` marker, and `parseLabels` returns a map with one label, named
`Source: http://prom/graph?expr`: the segment before the first marker is
given the marker like the blocks after it, and its second line is read as a
label line. -/
theorem parseLabels_without_marker_yields_label :
    Contains "FIRING\nSource: http://prom/graph?expr=up".toList labelsMarker = false ∧
    parseLabels "FIRING\nSource: http://prom/graph?expr=up".toList =
      .ok [("Source: http://prom/graph?expr".toList, "up".toList)] :=
  ⟨by rfl, by rfl⟩

/-! ## Blocks: `Split` at the marker -/

theorem splitScan_skip (sep x rest cur : Str) :
    splitScan sep x.length (x ++ rest) cur = splitScan sep 0 rest cur := by
  induction x with
  | nil => rfl
  | cons c cs ih => simpa [splitScan] using ih

/-- No occurrence of the marker begins inside a text without the marker and ends
inside a marker put after it: the capital `L` is the first character of the
marker only. -/
theorem labelsMarker_no_straddle (t rest : Str) (ht : t ≠ [])
    (h : labelsMarker.isPrefixOf t = false) :
    labelsMarker.isPrefixOf (t ++ (labelsMarker ++ rest)) = false := by
  rcases t with _ | ⟨c1, _ | ⟨c2, _ | ⟨c3, _ | ⟨c4, _ | ⟨c5, _ | ⟨c6, _ | ⟨c7, t⟩⟩⟩⟩⟩⟩⟩
  · exact absurd rfl ht
  all_goals
    simp only [labelsMarker, String.toList, List.isPrefixOf, List.cons_append, List.nil_append,
      Bool.and_eq_false_iff, beq_eq_false_iff_ne, ne_eq, Bool.and_true, Bool.and_false] at h ⊢
    first
      | exact h
      | simp

theorem splitScan_marker_cut (B rest cur : Str) (hB : Contains B labelsMarker = false) :
    splitScan labelsMarker 0 (B ++ (labelsMarker ++ rest)) cur =
      (cur.reverse ++ B) :: splitScan labelsMarker 0 rest [] := by
  induction B generalizing cur with
  | nil =>
    have hskip := splitScan_skip labelsMarker "abels:".toList rest []
    have hpre : labelsMarker.isPrefixOf ('L' :: ("abels:".toList ++ rest)) = true := by
      simp [labelsMarker, List.isPrefixOf]
    have hstep : splitScan labelsMarker 0 ('L' :: ("abels:".toList ++ rest)) cur
        = cur.reverse :: splitScan labelsMarker 6 ("abels:".toList ++ rest) [] := by
      rw [splitScan, if_pos hpre]
      rfl
    have hshape : ([] : Str) ++ (labelsMarker ++ rest) = 'L' :: ("abels:".toList ++ rest) := rfl
    rw [hshape, hstep]
    simpa using hskip
  | cons c cs ih =>
    simp only [Contains, Bool.or_eq_false_iff] at hB
    have hno := labelsMarker_no_straddle (c :: cs) rest (by simp) hB.1
    have hstep : splitScan labelsMarker 0 (c :: cs ++ (labelsMarker ++ rest)) cur
        = splitScan labelsMarker 0 (cs ++ (labelsMarker ++ rest)) (c :: cur) := by
      rw [List.cons_append] at hno ⊢
      rw [splitScan, if_neg (by simp [hno])]
    rw [hstep, ih _ hB.2]
    simp

theorem splitScan_marker_none (B cur : Str) (hB : Contains B labelsMarker = false) :
    splitScan labelsMarker 0 B cur = [cur.reverse ++ B] := by
  induction B generalizing cur with
  | nil => simp [splitScan]
  | cons c cs ih =>
    simp only [Contains, Bool.or_eq_false_iff] at hB
    rw [splitScan, if_neg (by simp [hB.1]), ih _ hB.2]
    simp

/-- A narrative made of two blocks, each the marker followed by a body without
the marker, splits into the empty text before the first marker and the two
bodies. -/
theorem Split_two_blocks (B1 B2 : Str) (h1 : Contains B1 labelsMarker = false)
    (h2 : Contains B2 labelsMarker = false) :
    Split (labelsMarker ++ B1 ++ labelsMarker ++ B2) labelsMarker = [[], B1, B2] := by
  have e : labelsMarker ++ B1 ++ labelsMarker ++ B2
      = [] ++ (labelsMarker ++ (B1 ++ (labelsMarker ++ B2))) := by simp
  rw [Split, e, splitScan_marker_cut [] _ [] rfl, splitScan_marker_cut B1 _ [] h1,
    splitScan_marker_none B2 [] h2]
  simp

theorem Split_one_block (B : Str) (h : Contains B labelsMarker = false) :
    Split (labelsMarker ++ B) labelsMarker = [[], B] := by
  have e : labelsMarker ++ B = [] ++ (labelsMarker ++ B) := by simp
  rw [Split, e, splitScan_marker_cut [] _ [] rfl, splitScan_marker_none B [] h]
  simp

/-! ## Two blocks -/

theorem splitScan_mem (sep : Str) (skip : Nat) (s cur l : Str) (c : Char)
    (hl : l ∈ splitScan sep skip s cur) (hc : c ∈ l) : c ∈ s ∨ c ∈ cur := by
  induction s generalizing skip cur with
  | nil =>
    cases skip <;>
    · simp only [splitScan, List.mem_singleton] at hl
      subst hl
      exact Or.inr (List.mem_reverse.1 hc)
  | cons a as ih =>
    cases skip with
    | succ n =>
      simp only [splitScan] at hl
      rcases ih _ _ hl with h | h
      · exact Or.inl (List.mem_cons_of_mem _ h)
      · exact Or.inr h
    | zero =>
      simp only [splitScan] at hl
      split at hl
      · rcases List.mem_cons.1 hl with h | h
        · subst h
          exact Or.inr (List.mem_reverse.1 hc)
        · rcases ih _ _ h with h2 | h2
          · exact Or.inl (List.mem_cons_of_mem _ h2)
          · simp at h2
      · rcases ih _ _ hl with h2 | h2
        · exact Or.inl (List.mem_cons_of_mem _ h2)
        · rcases List.mem_cons.1 h2 with h3 | h3
          · exact Or.inl (h3 ▸ List.mem_cons_self _ _)
          · exact Or.inr h3

theorem mem_of_mem_TrimSpace (s : Str) (c : Char) (h : c ∈ TrimSpace s) : c ∈ s := by
  unfold TrimSpace at h
  have h1 := List.mem_reverse.1 h
  have h2 := (List.dropWhile_suffix isSpace).subset h1
  have h3 := List.mem_reverse.1 h2
  exact (List.dropWhile_suffix isSpace).subset h3

theorem mem_of_mem_normalizeLine (raw : Str) (c : Char) (h : c ∈ normalizeLine raw) :
    c ∈ raw := by
  unfold normalizeLine TrimPrefix at h
  split at h
  · exact mem_of_mem_TrimSpace _ _ (List.mem_of_mem_drop h)
  · exact mem_of_mem_TrimSpace _ _ h

/-- A blank block body gives no label: a block that gives a label is not blank. -/
theorem not_blank_of_label (B k v : Str)
    (hget : goMapGet (extractLoop (Split (labelsMarker ++ B) newline) false []) k = some v) :
    TrimSpace B ≠ [] := by
  intro hblank
  have hk : k ∈ (extractLoop (Split (labelsMarker ++ B) newline) false []).map Prod.fst :=
    List.mem_map.2 ⟨(k, v), mem_of_goMapGet _ _ _ hget, rfl⟩
  rcases extractLoop_key_provenance _ _ _ _ hk with h | ⟨raw, hraw, heq, _⟩
  · simp at h
  · have h1 := mem_of_mem_normalizeLine _ _ heq
    rcases splitScan_mem _ _ _ _ _ _ hraw h1 with h2 | h2
    · rcases List.mem_append.1 h2 with h3 | h3
      · revert h3
        decide
      · have := (TrimSpace_eq_nil_iff B).1 hblank '=' h3
        revert this
        decide
    · simp at h2

/-- The parse of a narrative of two non-blank blocks: the labels of the first
block merged into the empty map, then the labels of the second merged in. -/
theorem parseLabels_two_blocks (B1 B2 : Str) (h1 : Contains B1 labelsMarker = false)
    (h2 : Contains B2 labelsMarker = false) (hb1 : TrimSpace B1 ≠ []) (hb2 : TrimSpace B2 ≠ []) :
    parseLabels (labelsMarker ++ B1 ++ labelsMarker ++ B2) =
      .ok (mergeBlock
        (mergeBlock [] (extractLoop (Split (labelsMarker ++ B1) newline) false []))
        (extractLoop (Split (labelsMarker ++ B2) newline) false [])) := by
  rw [parseLabels, Split_two_blocks B1 B2 h1 h2, parseLoop_cons_blank [] _ _ rfl,
    parseLoop_cons _ _ _ hb1, parseLoop_cons _ _ _ hb2]
  rfl

theorem parseLabels_one_block (B : Str) (h : Contains B labelsMarker = false)
    (hb : TrimSpace B ≠ []) :
    parseLabels (labelsMarker ++ B) =
      .ok (mergeBlock [] (extractLoop (Split (labelsMarker ++ B) newline) false [])) := by
  rw [parseLabels, Split_one_block B h, parseLoop_cons_blank [] _ _ rfl, parseLoop_cons _ _ _ hb]
  rfl

theorem goMapGet_two_blocks (bl1 bl2 : LabelMap) (k : Str)
    (hnd1 : (bl1.map Prod.fst).Nodup) (hnd2 : (bl2.map Prod.fst).Nodup) :
    goMapGet (mergeBlock (mergeBlock [] bl1) bl2) k =
      mergeValue (mergeValue none (goMapGet bl1 k)) (goMapGet bl2 k) := by
  rw [goMapGet_mergeBlock _ _ _ hnd2, goMapGet_mergeBlock _ _ _ hnd1]
  rfl

theorem mergeBlock_fresh (m bl : LabelMap) (hnd : ((m ++ bl).map Prod.fst).Nodup) :
    mergeBlock m bl = m ++ bl := by
  induction bl generalizing m with
  | nil => simp [mergeBlock]
  | cons hd tl ih =>
    obtain ⟨k, v⟩ := hd
    have hstep : mergeBlock m ((k, v) :: tl) = mergeBlock (mergeEntry m k v) tl := rfl
    have hk : k ∉ m.map Prod.fst := by
      intro hmem
      rw [List.map_append, List.nodup_append] at hnd
      exact hnd.2.2 hmem (by simp)
    have hentry : mergeEntry m k v = m ++ [(k, v)] := by
      unfold mergeEntry
      rw [goMapGet_eq_none m k hk]
      exact goMapSet_of_not_mem m k v hk
    rw [hstep, hentry, ih]
    · simp
    · simpa using hnd

theorem mergeBlock_same (m bl : LabelMap)
    (h : ∀ kv ∈ bl, goMapGet m kv.1 = some kv.2) : mergeBlock m bl = m := by
  induction bl with
  | nil => rfl
  | cons hd tl ih =>
    have hstep : mergeBlock m (hd :: tl) = mergeBlock (mergeEntry m hd.1 hd.2) tl := rfl
    have hentry : mergeEntry m hd.1 hd.2 = m := by
      unfold mergeEntry
      rw [h hd (List.mem_cons_self _ _)]
      simp
    rw [hstep, hentry]
    exact ih (fun kv hkv => h kv (List.mem_cons_of_mem _ hkv))

/-- Merging the labels of a block a second time changes nothing. -/
theorem mergeBlock_twice (bl : LabelMap) (hnd : (bl.map Prod.fst).Nodup) :
    mergeBlock (mergeBlock [] bl) bl = mergeBlock [] bl := by
  have h1 : mergeBlock [] bl = bl := by
    have := mergeBlock_fresh [] bl (by simpa using hnd)
    simpa using this
  rw [h1]
  exact mergeBlock_same bl bl (fun kv hkv => goMapGet_of_mem bl kv.1 kv.2 hnd hkv)

/-! ## Blocks written with plain tokens -/

theorem isPrefixOf_append_sep (M x y : Str) (c : Char)
    (h : M.isPrefixOf (x ++ c :: y) = true) : M.isPrefixOf x = true ∨ c ∈ M := by
  induction x generalizing M with
  | nil =>
    cases M with
    | nil => exact Or.inl rfl
    | cons m ms =>
      simp only [List.nil_append, List.isPrefixOf, Bool.and_eq_true, beq_iff_eq] at h
      exact Or.inr (h.1 ▸ List.mem_cons_self _ _)
  | cons a as ih =>
    cases M with
    | nil => exact Or.inl rfl
    | cons m ms =>
      simp only [List.cons_append, List.isPrefixOf, Bool.and_eq_true, beq_iff_eq] at h
      rcases ih ms h.2 with h2 | h2
      · exact Or.inl (by simp [List.isPrefixOf, h.1, h2])
      · exact Or.inr (List.mem_cons_of_mem _ h2)

theorem Contains_of_isPrefixOf (M x : Str) (h : M.isPrefixOf x = true) :
    Contains x M = true := by
  cases x <;> simp [Contains, h]

theorem Contains_append_sep (M x y : Str) (c : Char) (hx : Contains x M = false)
    (hy : Contains y M = false) (hc : c ∉ M) : Contains (x ++ c :: y) M = false := by
  induction x with
  | nil =>
    have h1 : M.isPrefixOf (c :: y) = false := by
      cases hp : M.isPrefixOf (c :: y) with
      | false => rfl
      | true =>
        rcases isPrefixOf_append_sep M [] y c hp with h | h
        · rw [Contains_of_isPrefixOf M [] h] at hx
          cases hx
        · exact absurd h hc
    simp [Contains, h1, hy]
  | cons a as ih =>
    simp only [Contains, Bool.or_eq_false_iff] at hx
    have h1 : M.isPrefixOf (a :: as ++ c :: y) = false := by
      cases hp : M.isPrefixOf (a :: as ++ c :: y) with
      | false => rfl
      | true =>
        rcases isPrefixOf_append_sep M (a :: as) y c hp with h | h
        · rw [h] at hx
          cases hx.1
        · exact absurd h hc
    rw [List.cons_append] at h1
    simp [Contains, h1, ih hx.2]

theorem dropWhile_append_of_fixed (p : Char → Bool) (a b : Str) (ha : a ≠ [])
    (h : a.dropWhile p = a) : (a ++ b).dropWhile p = a ++ b := by
  cases a with
  | nil => exact absurd rfl ha
  | cons c cs =>
    by_cases hc : p c = true
    · exfalso
      rw [List.dropWhile_cons_of_pos hc] at h
      have hle := (List.dropWhile_suffix p (l := cs)).length_le
      rw [h] at hle
      simp at hle
    · simp [List.dropWhile_cons, hc]

theorem rtrim_append_of_fixed (x y : Str) (hy : y ≠ [])
    (h : (y.reverse.dropWhile isSpace).reverse = y) :
    ((x ++ y).reverse.dropWhile isSpace).reverse = x ++ y := by
  have h2 : y.reverse.dropWhile isSpace = y.reverse := by
    have := congrArg List.reverse h
    simpa using this
  rw [List.reverse_append, dropWhile_append_of_fixed isSpace _ _ (by simpa using hy) h2]
  simp

theorem rtrim_of_TrimSpace_fixed (v : Str) (h : TrimSpace v = v) :
    (v.reverse.dropWhile isSpace).reverse = v := by
  unfold TrimSpace at h
  have h1 : ((v.dropWhile isSpace).reverse.dropWhile isSpace).length
      ≤ (v.dropWhile isSpace).length := by
    have := (List.dropWhile_suffix isSpace (l := (v.dropWhile isSpace).reverse)).length_le
    simpa using this
  have h2 : (v.dropWhile isSpace).length ≤ v.length :=
    (List.dropWhile_suffix isSpace (l := v)).length_le
  have h3 : v.length ≤ (v.dropWhile isSpace).length := by
    have := congrArg List.length h
    simp only [List.length_reverse] at this
    omega
  have h4 : v.dropWhile isSpace = v :=
    (List.dropWhile_suffix isSpace (l := v)).eq_of_length (by omega)
  rw [h4] at h
  exact h

theorem TrimSpace_labelLine (k v : Str) (hv : TrimSpace v = v) :
    TrimSpace (labelLine k v) = labelLine k v := by
  have hshape : labelLine k v = ('-' :: ' ' :: k) ++ ('=' :: v) := by
    simp [labelLine, listMarker, eqSep]
  have hhead : (('-' :: ' ' :: k) ++ ('=' :: v)).dropWhile isSpace
      = ('-' :: ' ' :: k) ++ ('=' :: v) := by
    have : isSpace '-' = false := by decide
    simp [List.dropWhile_cons, this]
  have htail : (('=' :: v).reverse.dropWhile isSpace).reverse = '=' :: v := by
    cases v with
    | nil => decide
    | cons c cs =>
      exact rtrim_append_of_fixed ['='] (c :: cs) (by simp) (rtrim_of_TrimSpace_fixed _ hv)
  rw [hshape]
  unfold TrimSpace
  rw [hhead]
  exact rtrim_append_of_fixed _ _ (by simp) htail

theorem normalizeLine_labelLine (k v : Str) (hv : TrimSpace v = v) :
    normalizeLine (labelLine k v) = k ++ '=' :: v := by
  rw [normalizeLine, TrimSpace_labelLine k v hv]
  simp [TrimPrefix, HasPrefix, labelLine, listMarker, eqSep, List.isPrefixOf]

theorem beforeEq_append (k v : Str) (hk : '=' ∉ k) :
    beforeEq (k ++ '=' :: v) = k ∧ afterEq (k ++ '=' :: v) = v := by
  induction k with
  | nil => simp [beforeEq, afterEq]
  | cons c cs ih =>
    simp only [List.mem_cons, not_or] at hk
    have hne : (c != '=') = true := by
      have : c ≠ '=' := fun e => hk.1 e.symm
      simpa using this
    have h1 := ih hk.2
    simp only [beforeEq, afterEq] at h1 ⊢
    simp [List.takeWhile_cons, List.dropWhile_cons, hne, h1.1, h1.2]

/-- The block `Labels:`, newline, `- k=v`, newline holds exactly the label `k = v`
when `k` and `v` are plain tokens. -/
theorem extractLoop_oneLabelBlock (k v : Str) (hk1 : '\n' ∉ k) (hk2 : '=' ∉ k)
    (hk3 : TrimSpace k = k) (hk4 : Contains k labelsMarker = false)
    (hk5 : HasPrefix k annotationsMarker = false) (hv1 : '\n' ∉ v) (hv3 : TrimSpace v = v) :
    extractLoop (Split (labelsMarker ++ oneLabelBlock k v) newline) false [] = [(k, v)] := by
  have hjoin : labelsMarker ++ oneLabelBlock k v
      = Join [labelsMarker, labelLine k v, []] newline := by
    simp [Join, oneLabelBlock]
  have hline : '\n' ∉ labelLine k v := by
    simp [labelLine, listMarker, eqSep, hk1, hv1]
  rw [hjoin, Split_Join labelsMarker _ (by decide) (by
    intro x hx
    rcases List.mem_cons.1 hx with h | h
    · exact h ▸ hline
    · rw [List.mem_singleton.1 h]
      simp)]
  have hnorm := normalizeLine_labelLine k v hv3
  have hL : HasPrefix (k ++ '=' :: v) labelsMarker = false := by
    cases hp : HasPrefix (k ++ '=' :: v) labelsMarker with
    | false => rfl
    | true =>
      rcases isPrefixOf_append_sep labelsMarker k v '=' hp with h | h
      · rw [Contains_of_isPrefixOf _ _ h] at hk4
        cases hk4
      · revert h
        decide
  have hA : HasPrefix (k ++ '=' :: v) annotationsMarker = false := by
    cases hp : HasPrefix (k ++ '=' :: v) annotationsMarker with
    | false => rfl
    | true =>
      rcases isPrefixOf_append_sep annotationsMarker k v '=' hp with h | h
      · have h' : HasPrefix k annotationsMarker = true := h
        rw [h'] at hk5
        cases hk5
      · revert h
        decide
  have hfirst : HasPrefix (normalizeLine labelsMarker) labelsMarker = true := by rfl
  have hb := beforeEq_append k v hk2
  have hlast1 : HasPrefix (normalizeLine []) labelsMarker = false := by rfl
  have hlast2 : isAnnotationsLine [] = false := by rfl
  have hlast3 : '=' ∉ normalizeLine [] := by
    intro h
    have := mem_of_mem_normalizeLine _ _ h
    simp at this
  have hlast : ∀ m : LabelMap, extractLoop [[]] true m = m := by
    intro m
    rw [extractLoop_cons]
    simp [hlast1, hlast2, hlast3, extractLoop]
  rw [extractLoop_cons, if_pos hfirst, extractLoop_cons]
  simp only [isAnnotationsLine, hnorm, hL, hA, hb.1, hb.2, hk3, hv3, hlast]
  simp [goMapSet]

theorem Contains_oneLabelBlock (k v : Str) (hk : Contains k labelsMarker = false)
    (hv : Contains v labelsMarker = false) :
    Contains (oneLabelBlock k v) labelsMarker = false := by
  have hshape : oneLabelBlock k v
      = [] ++ '\n' :: ([] ++ '-' :: ([] ++ ' ' :: (k ++ '=' :: (v ++ '\n' :: [])))) := by
    simp [oneLabelBlock, labelLine, listMarker, eqSep, newline]
  have hnil : Contains [] labelsMarker = false := by rfl
  rw [hshape]
  exact Contains_append_sep _ _ _ _ hnil
    (Contains_append_sep _ _ _ _ hnil
      (Contains_append_sep _ _ _ _ hnil
        (Contains_append_sep _ _ _ _ hk
          (Contains_append_sep _ _ _ _ hv hnil (by decide)) (by decide)) (by decide))
      (by decide)) (by decide)

theorem oneLabelBlock_not_blank (k v : Str) : TrimSpace (oneLabelBlock k v) ≠ [] := by
  intro h
  have := (TrimSpace_eq_nil_iff _).1 h '-' (by simp [oneLabelBlock, labelLine, listMarker, newline])
  revert this
  decide

/-- C1. For every key `k` and every two distinct values `v1`, `v2`: when a
narrative is made of two `Labels:` blocks (the marker, then a body without the
marker), the first block gives `k` the value `v1` and the second gives `k` the
value `v2`, `parseLabels` succeeds and maps `k` to `v1 ++ "|" ++ v2`, the value
seen first coming first.  In particular, for plain tokens `k`, `v1`, `v2` (no
newline, no surrounding white space, no `Labels:` inside; no `=` in `k`, and
`k` not starting with `Annotations:`) the narrative `Labels:`, `- k=v1`,
`Labels:`, `- k=v2`, one per line, parses to the single label `k = v1|v2`. -/
theorem parseLabels_two_blocks_alternation :
    (∀ (B1 B2 k v1 v2 : Str) (bl1 bl2 : LabelMap),
      Contains B1 labelsMarker = false → Contains B2 labelsMarker = false →
      extractBlockLabels (labelsMarker ++ B1) = .ok bl1 →
      extractBlockLabels (labelsMarker ++ B2) = .ok bl2 →
      goMapGet bl1 k = some v1 → goMapGet bl2 k = some v2 → v1 ≠ v2 →
      ∃ labels, parseLabels (labelsMarker ++ B1 ++ labelsMarker ++ B2) = .ok labels ∧
        goMapGet labels k = some (v1 ++ "|".toList ++ v2)) ∧
    (∀ k v1 v2 : Str, v1 ≠ v2 →
      '\n' ∉ k → '=' ∉ k → TrimSpace k = k → Contains k labelsMarker = false →
      HasPrefix k annotationsMarker = false →
      '\n' ∉ v1 → TrimSpace v1 = v1 → Contains v1 labelsMarker = false →
      '\n' ∉ v2 → TrimSpace v2 = v2 → Contains v2 labelsMarker = false →
      parseLabels (labelsMarker ++ oneLabelBlock k v1 ++ labelsMarker ++ oneLabelBlock k v2)
        = .ok [(k, v1 ++ "|".toList ++ v2)]) := by
  constructor
  · intro B1 B2 k v1 v2 bl1 bl2 h1 h2 hbl1 hbl2 hg1 hg2 hne
    rw [extractBlockLabels_ok] at hbl1 hbl2
    cases hbl1
    cases hbl2
    refine ⟨_, parseLabels_two_blocks B1 B2 h1 h2 (not_blank_of_label B1 k v1 hg1)
      (not_blank_of_label B2 k v2 hg2), ?_⟩
    rw [goMapGet_two_blocks _ _ _ (extractLoop_nodup _ _ _ (by simp))
      (extractLoop_nodup _ _ _ (by simp)), hg1, hg2]
    simp [mergeValue, hne, bar]
  · intro k v1 v2 hne hk1 hk2 hk3 hk4 hk5 hv11 hv13 hv14 hv21 hv23 hv24
    rw [parseLabels_two_blocks _ _ (Contains_oneLabelBlock k v1 hk4 hv14)
      (Contains_oneLabelBlock k v2 hk4 hv24) (oneLabelBlock_not_blank k v1)
      (oneLabelBlock_not_blank k v2),
      extractLoop_oneLabelBlock k v1 hk1 hk2 hk3 hk4 hk5 hv11 hv13,
      extractLoop_oneLabelBlock k v2 hk1 hk2 hk3 hk4 hk5 hv21 hv23]
    simp [mergeBlock, mergeEntry, goMapGet, goMapSet, hne, bar]

/-- C1, at `severity=critical` in the first block and `severity=warning` in the
second: once with free-form blocks, once with the one-line blocks. -/
theorem parseLabels_two_blocks_alternation_witness :
    (∃ labels,
      parseLabels (labelsMarker ++ "\n - severity=critical\n - job=a\n".toList ++ labelsMarker ++
        "\n - severity=warning".toList) = .ok labels ∧
      goMapGet labels "severity".toList
        = some ("critical".toList ++ "|".toList ++ "warning".toList)) ∧
    parseLabels (labelsMarker ++ oneLabelBlock "severity".toList "critical".toList ++
        labelsMarker ++ oneLabelBlock "severity".toList "warning".toList)
      = .ok [("severity".toList, "critical".toList ++ "|".toList ++ "warning".toList)] :=
  ⟨parseLabels_two_blocks_alternation.1 "\n - severity=critical\n - job=a\n".toList
      "\n - severity=warning".toList "severity".toList "critical".toList "warning".toList
      [("severity".toList, "critical".toList), ("job".toList, "a".toList)]
      [("severity".toList, "warning".toList)]
      (by rfl) (by rfl) (by rfl) (by rfl) (by rfl) (by rfl) (by decide),
    parseLabels_two_blocks_alternation.2 "severity".toList "critical".toList "warning".toList
      (by decide) (by decide) (by decide) (by rfl) (by rfl) (by rfl)
      (by decide) (by rfl) (by rfl) (by decide) (by rfl) (by rfl)⟩

/-- C10. When the two `Labels:` blocks of a narrative both give the key `k` the
value `v`, `parseLabels` maps `k` to exactly `v`; and for every block body `B`
without the marker, the narrative with the block twice parses to the same map
as the narrative with the block once. -/
theorem parseLabels_same_value_no_op :
    (∀ (B1 B2 k v : Str) (bl1 bl2 : LabelMap),
      Contains B1 labelsMarker = false → Contains B2 labelsMarker = false →
      extractBlockLabels (labelsMarker ++ B1) = .ok bl1 →
      extractBlockLabels (labelsMarker ++ B2) = .ok bl2 →
      goMapGet bl1 k = some v → goMapGet bl2 k = some v →
      ∃ labels, parseLabels (labelsMarker ++ B1 ++ labelsMarker ++ B2) = .ok labels ∧
        goMapGet labels k = some v) ∧
    (∀ B : Str, Contains B labelsMarker = false →
      parseLabels (labelsMarker ++ B ++ labelsMarker ++ B) = parseLabels (labelsMarker ++ B)) := by
  constructor
  · intro B1 B2 k v bl1 bl2 h1 h2 hbl1 hbl2 hg1 hg2
    rw [extractBlockLabels_ok] at hbl1 hbl2
    cases hbl1
    cases hbl2
    refine ⟨_, parseLabels_two_blocks B1 B2 h1 h2 (not_blank_of_label B1 k v hg1)
      (not_blank_of_label B2 k v hg2), ?_⟩
    rw [goMapGet_two_blocks _ _ _ (extractLoop_nodup _ _ _ (by simp))
      (extractLoop_nodup _ _ _ (by simp)), hg1, hg2]
    simp [mergeValue]
  · intro B h
    by_cases hb : TrimSpace B = []
    · rw [parseLabels, parseLabels, Split_two_blocks B B h h, Split_one_block B h,
        parseLoop_cons_blank [] _ _ rfl, parseLoop_cons_blank _ _ _ hb,
        parseLoop_cons_blank _ _ _ hb, parseLoop_cons_blank [] _ _ rfl,
        parseLoop_cons_blank _ _ _ hb]
    · rw [parseLabels_two_blocks B B h h hb hb, parseLabels_one_block B h hb,
        mergeBlock_twice _ (extractLoop_nodup _ _ _ (by simp))]

/-- C10, at two blocks that both hold `instance=node1` (and the block twice). -/
theorem parseLabels_same_value_no_op_witness :
    (∃ labels,
      parseLabels (labelsMarker ++ "\n - instance=node1\n - job=a\n".toList ++ labelsMarker ++
        "\n - instance=node1".toList) = .ok labels ∧
      goMapGet labels "instance".toList = some "node1".toList) ∧
    parseLabels (labelsMarker ++ "\n - instance=node1\n".toList ++ labelsMarker ++
        "\n - instance=node1\n".toList) =
      parseLabels (labelsMarker ++ "\n - instance=node1\n".toList) :=
  ⟨parseLabels_same_value_no_op.1 "\n - instance=node1\n - job=a\n".toList
      "\n - instance=node1".toList "instance".toList "node1".toList
      [("instance".toList, "node1".toList), ("job".toList, "a".toList)]
      [("instance".toList, "node1".toList)]
      (by rfl) (by rfl) (by rfl) (by rfl) (by rfl) (by rfl),
    parseLabels_same_value_no_op.2 "\n - instance=node1\n".toList (by rfl)⟩

end NoiseNullifier
